import Mathlib

/-
Verification of the clutch state-machine core (src/src/machine.ts).

The engine is shallowly embedded: the `StateMachine` instance fields become a
`Machine` record, each public method becomes a pure function from machine to
(result, machine), and JavaScript exceptions become `Except Exc`.  The Patch
Codec (the external immer library: `produce` / `applyPatches`) is the spec's
"primitive capability" (spec section 2); a recipe (with its middleware already
composed, as mutate/batch do before calling `produce`) is therefore modelled by
its realized effect: a function from the current state to either a thrown
exception or a `(nextState, patches, inversePatches)` triple, exactly the data
the engine receives back from `produce`.  Patch application is a left fold of a
caller-supplied single-patch application function, matching sequential
`applyPatches`.  Wall-clock fields (`timestamp`, `memoryUsage`) and the
persistence / devtools / sync collaborators (spec section 1: out of scope,
and all `null` when not configured) are omitted; `emit` additionally records
each emitted event in a ghost trace `emits`, and `setState`'s call to the
debounced notifier is recorded by the ghost counter `notifyCount`, so that
"an event was emitted" and "a notification was scheduled" are observable.
-/

namespace Clutch

/-- Mutation operations, from machine.ts `MutationOperation`. -/
inductive MutationOperation where
  | mutateOp | batchOp | undoOp | redoOp
  deriving DecidableEq, Repr

/-- Lifecycle event kinds, from machine.ts `LifecycleEvent`. -/
inductive LifecycleEvent where
  | afterMutate | error | destroy
  deriving DecidableEq, Repr

/-- Thrown JavaScript errors.  `validation msg` is `StateValidationError`
(a `StateMachineError` with code `VALIDATION_ERROR`), `machineErr code msg` is
a `StateMachineError` with the given code, and `user msg` is any other thrown
value (e.g. an exception from a recipe or middleware). -/
inductive Exc where
  | validation (msg : String)
  | machineErr (code : String) (msg : String)
  | user (msg : String)
  deriving DecidableEq, Repr

/-- `error instanceof StateValidationError`. -/
def Exc.isValidation : Exc → Bool
  | .validation _ => true
  | _ => false

/-- The error thrown by `assertNotDestroyed`. -/
def destroyedError : Exc :=
  .machineErr "DESTROYED" "Cannot operate on destroyed StateMachine"

/-- One journal entry, from machine.ts `StateSnapshot`.  The wall-clock
`timestamp` field is omitted (irrelevant to the engine's behaviour). -/
structure Snapshot (P : Type) where
  patches : List P
  inversePatches : List P
  description : Option String
  deriving DecidableEq, Repr

/-- A record of one `emit()` call (ghost observable). -/
inductive EmitRecord (σ P : Type) where
  | afterMutate (state : σ) (patches inversePatches : List P)
      (description : Option String) (operation : MutationOperation)
  | error (exc : Exc) (operation : String)
  | destroyed (finalState : σ)
  deriving DecidableEq, Repr

/-- The engine configuration fields the core algorithm reads
(machine.ts `InternalStateConfig`, restricted to the in-scope parts). -/
structure Config (σ : Type) where
  maxHistorySize : Nat
  validateState : σ → Bool

/-- The mutable fields of a `StateMachine` instance, plus the two ghost
observables `emits` and `notifyCount`.  `listeners` holds plain subscriber
identities (a JS `Set`), `eventListeners` is the lazily allocated lifecycle
registry (`null` ↦ `none`), an association list from event kind to the set
(insertion-ordered, duplicate-free list) of listener identities. -/
structure Machine (σ P : Type) where
  state : σ
  history : List (Snapshot P)
  historyIndex : Int
  isDirty : Bool
  isDestroyed : Bool
  listeners : List Nat
  eventListeners : Option (List (LifecycleEvent × List Nat))
  emits : List (EmitRecord σ P)
  notifyCount : Nat
  deriving DecidableEq, Repr

/-- A freshly constructed machine (no persisted state loaded: the persistence
collaborator is out of scope, so the constructor falls back to
`config.initialState`; history empty, cursor −1, registry unallocated). -/
def mkMachine {σ P : Type} (s : σ) : Machine σ P :=
  { state := s, history := [], historyIndex := -1, isDirty := false,
    isDestroyed := false, listeners := [], eventListeners := none,
    emits := [], notifyCount := 0 }

variable {σ P : Type}

/-- The realized effect of `produce(state, composeMiddleware(recipe, ...))`:
the next state plus forward and inverse patch lists, or a thrown exception. -/
def RecipeFn (σ P : Type) : Type := σ → Except Exc (σ × List P × List P)

/-- A value passed where a recipe is expected: a callable recipe, or a
non-function value (fails the `typeof recipe !== 'function'` check). -/
inductive RecipeArg (σ P : Type) where
  | fn (r : RecipeFn σ P)
  | notFunction

/-- A value passed where a listener is expected. -/
inductive ListenerArg where
  | fn (id : Nat)
  | notFunction
  deriving DecidableEq, Repr

/-- Sequential patch application: the codec's `applyPatches` as a left fold of
single-patch application. -/
def applyPatches (ap : σ → P → σ) (s : σ) (ps : List P) : σ :=
  ps.foldl ap s

/-- machine.ts `emit`: delivers the payload to the registered listeners
(which cannot affect the machine: listener exceptions are caught and logged);
the ghost trace records the call. -/
def emit (m : Machine σ P) (r : EmitRecord σ P) : Machine σ P :=
  { m with emits := m.emits ++ [r] }

/-- machine.ts `setState`: swap the live state, optionally mark dirty, schedule
the debounced notification (ghost-counted), persist locally (out of scope). -/
def setState (m : Machine σ P) (s : σ) (markDirty : Bool) : Machine σ P :=
  { m with
    state := s, isDirty := (m.isDirty || markDirty),
    notifyCount := m.notifyCount + 1 }

/-- machine.ts `assertNotDestroyed`. -/
def assertNotDestroyed (m : Machine σ P) : Except Exc Unit :=
  if m.isDestroyed then .error destroyedError else .ok ()

/-- `snapshot.description` is only set when `description` is truthy
(`undefined` and the empty string are both falsy). -/
def snapDescription (d : Option String) : Option String :=
  match d with
  | some s => if s = "" then none else some s
  | none => none

/-- machine.ts `saveToHistory`: prune the redo branch beyond the cursor, append
the new snapshot, advance the cursor, and evict the oldest snapshot (shifting
the cursor back) if the cap is exceeded. -/
def saveToHistory (cfg : Config σ) (m : Machine σ P)
    (patches inversePatches : List P) (description : Option String) :
    Machine σ P :=
  let history :=
    if m.historyIndex < (m.history.length : Int) - 1 then
      m.history.take (m.historyIndex + 1).toNat
    else
      m.history
  let snapshot : Snapshot P :=
    { patches := patches, inversePatches := inversePatches,
      description := snapDescription description }
  let history := history ++ [snapshot]
  let historyIndex := m.historyIndex + 1
  if history.length > cfg.maxHistorySize then
    { m with history := history.drop 1, historyIndex := historyIndex - 1 }
  else
    { m with history := history, historyIndex := historyIndex }

/-- machine.ts `canUndo` (note: no destroyed-instance assertion in source). -/
def canUndo (m : Machine σ P) : Bool :=
  decide (0 ≤ m.historyIndex)

/-- machine.ts `canRedo` (note: no destroyed-instance assertion in source). -/
def canRedo (m : Machine σ P) : Bool :=
  decide (m.historyIndex < (m.history.length : Int) - 1)

/-- JavaScript indexing `arr[i]` for a possibly negative index. -/
def getAtInt (l : List (Snapshot P)) (i : Int) : Option (Snapshot P) :=
  if i < 0 then none else l.get? i.toNat

/-- The body of machine.ts `mutate`'s `try` block up to the commit decision:
run the (middleware-composed) recipe through `produce`; with no patches the
operation is a no-op (`ok none`); otherwise validate the candidate state
(`validateState` throws `StateValidationError` on rejection). -/
def mutateBody (cfg : Config σ) (r : RecipeFn σ P) (s : σ) :
    Except Exc (Option (σ × List P × List P)) :=
  match r s with
  | .error e => .error e
  | .ok (nextState, patches, inversePatches) =>
    if patches.length > 0 then
      if cfg.validateState nextState then .ok (some (nextState, patches, inversePatches))
      else .error (.validation "State validation failed")
    else .ok none

/-- machine.ts `mutate`.  The commit path (saveToHistory / setState / emit)
cannot throw (listener and persistence errors are caught internally), so it is
written after the `try` body's result is inspected; the `catch` clause emits an
error event, rethrows `StateValidationError` unwrapped, and wraps anything else
as a `MUTATION_ERROR` `StateMachineError`. -/
def mutate (cfg : Config σ) (m : Machine σ P) (recipe : RecipeArg σ P)
    (description : Option String) : Except Exc Unit × Machine σ P :=
  match assertNotDestroyed m with
  | .error e => (.error e, m)
  | .ok _ =>
    match recipe with
    | .notFunction => (.error (.validation "Recipe must be a function"), m)
    | .fn r =>
      match mutateBody cfg r m.state with
      | .ok none => (.ok (), m)
      | .ok (some (nextState, patches, inversePatches)) =>
        let m₁ := saveToHistory cfg m patches inversePatches description
        let m₂ := setState m₁ nextState true
        let m₃ := emit m₂
          (.afterMutate nextState patches inversePatches description .mutateOp)
        (.ok (), m₃)
      | .error e =>
        let m₁ := emit m (.error e "mutate")
        if e.isValidation then (.error e, m₁)
        else (.error (.machineErr "MUTATION_ERROR" "State mutation failed"), m₁)

/-- machine.ts `batch`'s `mutations.reduce(...)`: thread the candidate state
recipe-to-recipe, `push` the forward patches onto the accumulator and `unshift`
the inverse patches (prepending the whole list); a non-function element throws
`StateValidationError` from inside the reduce. -/
def batchFold : List (RecipeArg σ P) → σ → List P → List P →
    Except Exc (σ × List P × List P)
  | [], s, fps, ips => .ok (s, fps, ips)
  | .notFunction :: _, _, _, _ =>
    .error (.validation "Mutation in batch must be a function")
  | .fn r :: rest, s, fps, ips =>
    match r s with
    | .error e => .error e
    | .ok (nextState, patches, inversePatches) =>
      batchFold rest nextState (fps ++ patches) (inversePatches ++ ips)

/-- `description || 'Batch operation'` (empty string is falsy). -/
def batchDesc (d : Option String) : String :=
  match d with
  | some s => if s = "" then "Batch operation" else s
  | none => "Batch operation"

/-- The body of machine.ts `batch`'s `try` block up to the commit decision. -/
def batchBody (cfg : Config σ) (mutations : List (RecipeArg σ P)) (s : σ) :
    Except Exc (Option (σ × List P × List P)) :=
  match batchFold mutations s [] [] with
  | .error e => .error e
  | .ok (finalState, allPatches, allInversePatches) =>
    if allPatches.length > 0 then
      if cfg.validateState finalState then
        .ok (some (finalState, allPatches, allInversePatches))
      else .error (.validation "State validation failed")
    else .ok none

/-- machine.ts `batch`.  An empty list is a documented no-op; the live state is
only replaced after every recipe has succeeded; the `catch` clause emits an
error event and rethrows everything wrapped as `BATCH_ERROR`. -/
def batch (cfg : Config σ) (m : Machine σ P) (mutations : List (RecipeArg σ P))
    (description : Option String) : Except Exc Unit × Machine σ P :=
  match assertNotDestroyed m with
  | .error e => (.error e, m)
  | .ok _ =>
    if mutations.length = 0 then (.ok (), m)
    else
      match batchBody cfg mutations m.state with
      | .ok none => (.ok (), m)
      | .ok (some (finalState, allPatches, allInversePatches)) =>
        let m₁ := saveToHistory cfg m allPatches allInversePatches
          (some (batchDesc description))
        let m₂ := setState m₁ finalState true
        let m₃ := emit m₂
          (.afterMutate finalState allPatches allInversePatches description .batchOp)
        (.ok (), m₃)
      | .error e =>
        let m₁ := emit m (.error e "batch")
        (.error (.machineErr "BATCH_ERROR" "Batch operation failed"), m₁)

/-- machine.ts `undo`: apply the cursor snapshot's inverse patches, validate
(a rejection is caught, emits an error event, and returns `false` with the
cursor unmoved), decrement the cursor, swap state without marking dirty, and
emit an `afterMutate` event describing the transition actually performed. -/
def undo (cfg : Config σ) (ap : σ → P → σ) (m : Machine σ P) :
    Except Exc Bool × Machine σ P :=
  match assertNotDestroyed m with
  | .error e => (.error e, m)
  | .ok _ =>
    if canUndo m = false then (.ok false, m)
    else
      match getAtInt m.history m.historyIndex with
      | none => (.ok false, m)
      | some snapshot =>
        let newState := applyPatches ap m.state snapshot.inversePatches
        if cfg.validateState newState then
          let m₁ := { m with historyIndex := m.historyIndex - 1 }
          let m₂ := setState m₁ newState false
          let m₃ := emit m₂
            (.afterMutate newState snapshot.inversePatches snapshot.patches
              snapshot.description .undoOp)
          (.ok true, m₃)
        else
          (.ok false, emit m (.error (Exc.validation "State validation failed") "undo"))

/-- machine.ts `redo`: symmetric to `undo`.  The source increments the cursor
first and rolls it back in the `catch` clause / missing-snapshot branch; the
net cursor movement is modelled directly (committed only on success). -/
def redo (cfg : Config σ) (ap : σ → P → σ) (m : Machine σ P) :
    Except Exc Bool × Machine σ P :=
  match assertNotDestroyed m with
  | .error e => (.error e, m)
  | .ok _ =>
    if canRedo m = false then (.ok false, m)
    else
      match getAtInt m.history (m.historyIndex + 1) with
      | none => (.ok false, m)
      | some snapshot =>
        let newState := applyPatches ap m.state snapshot.patches
        if cfg.validateState newState then
          let m₁ := { m with historyIndex := m.historyIndex + 1 }
          let m₂ := setState m₁ newState false
          let m₃ := emit m₂
            (.afterMutate newState snapshot.patches snapshot.inversePatches
              snapshot.description .redoOp)
          (.ok true, m₃)
        else
          (.ok false, emit m (.error (Exc.validation "State validation failed") "redo"))

/-- machine.ts `getState`. -/
def getState (m : Machine σ P) : Except Exc σ × Machine σ P :=
  match assertNotDestroyed m with
  | .error e => (.error e, m)
  | .ok _ => (.ok m.state, m)

/-- machine.ts `subscribe`: asserts liveness, rejects non-functions, adds the
listener to the `Set` (no duplicates), and synchronously invokes it once with
the current state (listener exceptions are caught). -/
def subscribe (m : Machine σ P) (l : ListenerArg) :
    Except Exc Unit × Machine σ P :=
  match assertNotDestroyed m with
  | .error e => (.error e, m)
  | .ok _ =>
    match l with
    | .notFunction => (.error (.validation "Listener must be a function"), m)
    | .fn id =>
      let listeners := if id ∈ m.listeners then m.listeners else m.listeners ++ [id]
      (.ok (), { m with listeners := listeners })

/-- machine.ts `getHistoryInfo` (note: no destroyed-instance assertion in
source; a point-in-time read).  `memoryUsage` is omitted (JSON-size estimate,
out of scope). -/
structure StateHistoryInfo where
  canUndo : Bool
  canRedo : Bool
  historyLength : Nat
  currentIndex : Int
  lastAction : Option String
  deriving DecidableEq, Repr

/-- machine.ts `getHistoryInfo`. -/
def getHistoryInfo (m : Machine σ P) : StateHistoryInfo :=
  { canUndo := canUndo m, canRedo := canRedo m,
    historyLength := m.history.length, currentIndex := m.historyIndex,
    lastAction := (getAtInt m.history m.historyIndex).bind (·.description) }

/-- machine.ts `clearHistory`. -/
def clearHistory (m : Machine σ P) : Except Exc Unit × Machine σ P :=
  match assertNotDestroyed m with
  | .error e => (.error e, m)
  | .ok _ => (.ok (), { m with history := [], historyIndex := -1 })

/-- Association-list lookup for the lifecycle registry. -/
def regGet (reg : List (LifecycleEvent × List Nat)) (e : LifecycleEvent) :
    Option (List Nat) :=
  (reg.find? (fun p => p.1 = e)).map (·.2)

/-- Association-list update (replace the entry for `e`, or append it). -/
def regSet (reg : List (LifecycleEvent × List Nat)) (e : LifecycleEvent)
    (v : List Nat) : List (LifecycleEvent × List Nat) :=
  if (reg.find? (fun p => p.1 = e)).isSome then
    reg.map (fun p => if p.1 = e then (e, v) else p)
  else
    reg ++ [(e, v)]

/-- Association-list deletion. -/
def regErase (reg : List (LifecycleEvent × List Nat)) (e : LifecycleEvent) :
    List (LifecycleEvent × List Nat) :=
  reg.filter (fun p => ¬ (p.1 = e))

/-- machine.ts `on` (named `onEvt` here: `on` is an infix token in Lean):
allocate the registry lazily on first subscription, then add the listener to
the event's `Set`. -/
def onEvt (m : Machine σ P) (e : LifecycleEvent) (id : Nat) :
    Except Exc Unit × Machine σ P :=
  match assertNotDestroyed m with
  | .error e' => (.error e', m)
  | .ok _ =>
    let reg := m.eventListeners.getD []
    let cur := (regGet reg e).getD []
    let cur := if id ∈ cur then cur else cur ++ [id]
    (.ok (), { m with eventListeners := some (regSet reg e cur) })

/-- The unsubscribe closure returned by machine.ts `on`: remove the listener;
if the event's set becomes empty delete the entry, and if the map becomes
empty reset the registry to the unallocated state. -/
def off (m : Machine σ P) (e : LifecycleEvent) (id : Nat) : Machine σ P :=
  match m.eventListeners with
  | none => m
  | some reg =>
    match regGet reg e with
    | none => m
    | some cur =>
      let cur := cur.filter (fun x => ¬ (x = id))
      if cur.length = 0 then
        let reg := regErase reg e
        if reg.length = 0 then { m with eventListeners := none }
        else { m with eventListeners := some reg }
      else
        { m with eventListeners := some (regSet reg e cur) }

/-- machine.ts `destroy`: idempotent; emits the teardown event with the final
state before releasing listeners and journal.  Note the source empties
`history` but does not reset `historyIndex`. -/
def destroy (m : Machine σ P) : Machine σ P :=
  if m.isDestroyed then m
  else
    let m₁ := emit m (.destroyed m.state)
    { m₁ with
      isDestroyed := true, listeners := [], history := [],
      eventListeners := none }

/-- One public engine call, for reasoning about arbitrary call sequences. -/
inductive Op (σ P : Type) where
  | mutateOp (recipe : RecipeArg σ P) (description : Option String)
  | batchOp (mutations : List (RecipeArg σ P)) (description : Option String)
  | undoOp
  | redoOp
  | clearHistoryOp
  | subscribeOp (l : ListenerArg)
  | onOp (e : LifecycleEvent) (id : Nat)
  | offOp (e : LifecycleEvent) (id : Nat)

/-- Is this one of the four journal-writing engine operations? -/
def Op.isEngineOp : Op σ P → Bool
  | .mutateOp _ _ => true
  | .batchOp _ _ => true
  | .undoOp => true
  | .redoOp => true
  | _ => false

/-- Execute one call, keeping the resulting machine. -/
def step (cfg : Config σ) (ap : σ → P → σ) (m : Machine σ P) :
    Op σ P → Machine σ P
  | .mutateOp r d => (mutate cfg m r d).2
  | .batchOp rs d => (batch cfg m rs d).2
  | .undoOp => (undo cfg ap m).2
  | .redoOp => (redo cfg ap m).2
  | .clearHistoryOp => (clearHistory m).2
  | .subscribeOp l => (subscribe m l).2
  | .onOp e id => (onEvt m e id).2
  | .offOp e id => (off m e id)

/-- Execute a sequence of calls. -/
def runOps (cfg : Config σ) (ap : σ → P → σ) :
    Machine σ P → List (Op σ P) → Machine σ P
  | m, [] => m
  | m, op :: rest => runOps cfg ap (step cfg ap m op) rest

/-
Middleware pipeline (machine.ts `composeMiddleware`).  A middleware receives
the frozen context, the `next` continuation and the in-flight draft.  The
draft is modelled as the state value paired with an execution log, so that
the observable execution order of the claims is a value.  The soft-timeout
wrapper around each middleware invocation (arm a timer, invoke, disarm) is
behaviourally the identity for any middleware that returns synchronously
(spec sections 4.3 and 9: the guard cannot preempt synchronous execution),
so it is not reflected in the model.
-/

/-- The in-flight mutable draft, with a ghost execution log. -/
structure MwDraft (σ : Type) where
  value : σ
  log : List String
  deriving DecidableEq, Repr

/-- machine.ts `MiddlewareContext` (the wall-clock `timestamp` omitted). -/
structure MiddlewareContext (σ : Type) where
  state : σ
  description : Option String
  operation : MutationOperation

/-- machine.ts `Middleware`: `(context, next, draft) → void`, modelled as a
draft transformer. -/
def Middleware (σ : Type) : Type :=
  MiddlewareContext σ → (MwDraft σ → MwDraft σ) → MwDraft σ → MwDraft σ

/-- machine.ts `composeMiddleware`: with an empty middleware list the recipe is
returned directly; otherwise the chain is composed with `reduceRight` so that
the first-declared middleware is outermost. -/
def composeMiddleware (middleware : List (Middleware σ))
    (recipe : MwDraft σ → MwDraft σ) (ctx : MiddlewareContext σ) :
    MwDraft σ → MwDraft σ :=
  if middleware.length = 0 then recipe
  else middleware.foldr (fun mw next => fun draft => mw ctx next draft) recipe

/-- A middleware that logs `pre`, delegates to `next`, then logs `post` —
the shape the middleware-ordering property quantifies over. -/
def traceMiddleware (pre post : String) : Middleware σ :=
  fun _ next draft =>
    let draft := { draft with log := draft.log ++ [pre] }
    let draft := next draft
    { draft with log := draft.log ++ [post] }

/-- A recipe that applies `f` to the draft value and logs `name`. -/
def traceRecipe (name : String) (f : σ → σ) : MwDraft σ → MwDraft σ :=
  fun draft => { value := f draft.value, log := draft.log ++ [name] }

end Clutch

namespace Clutch

/-
Concrete instantiation used by witnesses and counterexamples: the state is an
`Int` counter and a patch replaces the whole value (the shape immer produces
for the spec's `{count}` example scenario). -/

/-- A concrete patch: replace the root value. -/
inductive IPatch where
  | set (v : Int)
  deriving DecidableEq, Repr

/-- Apply one concrete patch. -/
def iApply (_s : Int) (p : IPatch) : Int :=
  match p with
  | .set v => v

/-- A concrete configuration: default cap 50, always-true validator. -/
def icfg : Config Int :=
  { maxHistorySize := 50, validateState := fun _ => true }

/-- The same configuration with cap 1, for the eviction counterexample. -/
def icfg1 : Config Int :=
  { maxHistorySize := 1, validateState := fun _ => true }

/-- A configuration whose validator rejects negative values. -/
def icfgNonneg : Config Int :=
  { maxHistorySize := 50, validateState := fun s => decide (0 ≤ s) }

/-- The fresh concrete machine with initial state 0. -/
def im0 : Machine Int IPatch := mkMachine 0

/-- A concrete recipe that sets the counter to `v` from known state `frm`
(realized produce output: forward patch `set v`, inverse patch `set frm`). -/
def setRecipe (frm v : Int) : RecipeArg Int IPatch :=
  .fn (fun _ => .ok (v, [IPatch.set v], [IPatch.set frm]))

/-- A concrete recipe that throws. -/
def throwRecipe : RecipeArg Int IPatch :=
  .fn (fun _ => .error (.user "boom"))

/-- A concrete recipe that changes nothing (empty forward patch list). -/
def noopRecipe : RecipeArg Int IPatch :=
  .fn (fun s => .ok (s, [], []))

/-
Projection lemmas: which instance fields each internal helper touches.
-/

variable {σ P : Type}

theorem emit_proj (m : Machine σ P) (r : EmitRecord σ P) :
    (emit m r).state = m.state ∧ (emit m r).history = m.history ∧
    (emit m r).historyIndex = m.historyIndex ∧
    (emit m r).isDestroyed = m.isDestroyed ∧
    (emit m r).eventListeners = m.eventListeners ∧
    (emit m r).notifyCount = m.notifyCount ∧
    (emit m r).emits = m.emits ++ [r] := by
  simp [emit]

theorem setState_proj (m : Machine σ P) (s : σ) (b : Bool) :
    (setState m s b).state = s ∧ (setState m s b).history = m.history ∧
    (setState m s b).historyIndex = m.historyIndex ∧
    (setState m s b).isDestroyed = m.isDestroyed ∧
    (setState m s b).eventListeners = m.eventListeners ∧
    (setState m s b).emits = m.emits ∧
    (setState m s b).notifyCount = m.notifyCount + 1 := by
  simp [setState]

theorem saveToHistory_proj (cfg : Config σ) (m : Machine σ P)
    (p ip : List P) (d : Option String) :
    (saveToHistory cfg m p ip d).state = m.state ∧
    (saveToHistory cfg m p ip d).isDestroyed = m.isDestroyed ∧
    (saveToHistory cfg m p ip d).eventListeners = m.eventListeners ∧
    (saveToHistory cfg m p ip d).emits = m.emits ∧
    (saveToHistory cfg m p ip d).notifyCount = m.notifyCount := by
  unfold saveToHistory
  split <;> dsimp only <;> split <;> simp

/-- The journal bound and cursor-validity invariant from spec section 3. -/
def JournalInvariant (cfg : Config σ) (m : Machine σ P) : Prop :=
  m.history.length ≤ cfg.maxHistorySize ∧ -1 ≤ m.historyIndex ∧
    m.historyIndex < (m.history.length : Int)

theorem canRedo_saveToHistory (cfg : Config σ) (m : Machine σ P)
    (p ip : List P) (d : Option String) (h1 : -1 ≤ m.historyIndex) :
    canRedo (saveToHistory cfg m p ip d) = false := by
  unfold saveToHistory
  split <;> dsimp only <;> split <;>
    simp only [canRedo, decide_eq_false_iff_not, not_lt] <;>
    simp_all [List.length_take, List.length_drop] <;> omega

theorem JournalInvariant_saveToHistory (cfg : Config σ) (m : Machine σ P)
    (p ip : List P) (d : Option String) (hmax : 1 ≤ cfg.maxHistorySize)
    (hinv : JournalInvariant cfg m) :
    JournalInvariant cfg (saveToHistory cfg m p ip d) := by
  obtain ⟨hlen, hlo, hhi⟩ := hinv
  unfold saveToHistory
  split <;> dsimp only <;> split <;>
    refine ⟨?_, ?_, ?_⟩ <;>
    simp_all [JournalInvariant, List.length_take, List.length_drop] <;> omega

theorem saveToHistory_no_evict (cfg : Config σ) (m : Machine σ P)
    (p ip : List P) (d : Option String)
    (h2 : m.historyIndex = (m.history.length : Int) - 1)
    (h3 : m.history.length < cfg.maxHistorySize) :
    (saveToHistory cfg m p ip d).history
        = m.history ++ [⟨p, ip, snapDescription d⟩]
      ∧ (saveToHistory cfg m p ip d).historyIndex = m.historyIndex + 1 := by
  unfold saveToHistory
  split <;> dsimp only <;> split <;> simp_all <;> omega

theorem mem_saveToHistory (cfg : Config σ) (m : Machine σ P)
    (p ip : List P) (d : Option String) (h1 : -1 ≤ m.historyIndex) :
    ∀ s ∈ (saveToHistory cfg m p ip d).history,
      s = ⟨p, ip, snapDescription d⟩
        ∨ s ∈ m.history.take (m.historyIndex + 1).toNat := by
  have htake : m.history.take (m.historyIndex + 1).toNat = m.history
      ∨ m.historyIndex < (m.history.length : Int) - 1 := by
    rcases lt_or_le m.historyIndex ((m.history.length : Int) - 1) with h | h
    · exact Or.inr h
    · exact Or.inl (List.take_of_length_le (by omega))
  unfold saveToHistory
  split <;> dsimp only <;> split <;> intro s hs
  · rcases List.mem_append.mp (List.mem_of_mem_drop hs) with h | h
    · exact Or.inr h
    · exact Or.inl (List.mem_singleton.mp h)
  · rcases List.mem_append.mp hs with h | h
    · exact Or.inr h
    · exact Or.inl (List.mem_singleton.mp h)
  · rcases List.mem_append.mp (List.mem_of_mem_drop hs) with h | h
    · rcases htake with ht | ht
      · exact Or.inr (ht.symm ▸ h)
      · omega
    · exact Or.inl (List.mem_singleton.mp h)
  · rcases List.mem_append.mp hs with h | h
    · rcases htake with ht | ht
      · exact Or.inr (ht.symm ▸ h)
      · omega
    · exact Or.inl (List.mem_singleton.mp h)

theorem saveToHistory_cursor_at_end (cfg : Config σ) (m : Machine σ P)
    (p ip : List P) (d : Option String) (hmax : 1 ≤ cfg.maxHistorySize)
    (h1 : -1 ≤ m.historyIndex)
    (h2 : m.historyIndex < (m.history.length : Int)) :
    (saveToHistory cfg m p ip d).historyIndex
        = ((saveToHistory cfg m p ip d).history.length : Int) - 1
      ∧ (saveToHistory cfg m p ip d).history.getLast?
        = some ⟨p, ip, snapDescription d⟩ := by
  unfold saveToHistory
  split <;> dsimp only <;> split
  · rename_i hprune hevict
    simp only [List.length_append, List.length_take, List.length_cons,
      List.length_nil] at hevict
    constructor
    · simp only [List.length_drop, List.length_append, List.length_take,
        List.length_cons, List.length_nil]
      omega
    · rw [List.drop_append_of_le_length (by simp [List.length_take]; omega),
        List.getLast?_concat]
  · rename_i hprune hevict
    constructor
    · simp only [List.length_append, List.length_take, List.length_cons,
        List.length_nil]
      omega
    · exact List.getLast?_concat _
  · rename_i hprune hevict
    simp only [List.length_append, List.length_cons, List.length_nil] at hevict
    constructor
    · simp only [List.length_drop, List.length_append, List.length_cons,
        List.length_nil]
      omega
    · rw [List.drop_append_of_le_length (by omega), List.getLast?_concat]
  · rename_i hprune hevict
    constructor
    · simp only [List.length_append, List.length_cons, List.length_nil]
      omega
    · exact List.getLast?_concat _

/-
Evaluation lemmas for `mutate` and `batch` on decided inputs.
-/

theorem mutate_success (cfg : Config σ) (m : Machine σ P) (r : RecipeFn σ P)
    (s' : σ) (p ip : List P) (d : Option String)
    (hlive : m.isDestroyed = false) (hr : r m.state = .ok (s', p, ip))
    (hp : p ≠ []) (hv : cfg.validateState s' = true) :
    mutate cfg m (.fn r) d =
      (.ok (),
       emit (setState (saveToHistory cfg m p ip d) s' true)
         (.afterMutate s' p ip d .mutateOp)) := by
  have hp' : 0 < p.length := List.length_pos.mpr hp
  simp [mutate, assertNotDestroyed, hlive, mutateBody, hr, hp', hv]

theorem mutate_validation_failure (cfg : Config σ) (m : Machine σ P)
    (r : RecipeFn σ P) (s' : σ) (p ip : List P) (d : Option String)
    (hlive : m.isDestroyed = false) (hr : r m.state = .ok (s', p, ip))
    (hp : p ≠ []) (hv : cfg.validateState s' = false) :
    mutate cfg m (.fn r) d =
      (.error (.validation "State validation failed"),
       emit m (.error (.validation "State validation failed") "mutate")) := by
  have hp' : 0 < p.length := List.length_pos.mpr hp
  simp [mutate, assertNotDestroyed, hlive, mutateBody, hr, hp', hv, Exc.isValidation]

theorem batch_success (cfg : Config σ) (m : Machine σ P)
    (mutations : List (RecipeArg σ P)) (d : Option String)
    (fs : σ) (aP aIP : List P) (hlive : m.isDestroyed = false)
    (hfold : batchFold mutations m.state [] [] = .ok (fs, aP, aIP))
    (hne : mutations ≠ []) (hp : aP ≠ [])
    (hv : cfg.validateState fs = true) :
    batch cfg m mutations d =
      (.ok (),
       emit (setState (saveToHistory cfg m aP aIP (some (batchDesc d))) fs true)
         (.afterMutate fs aP aIP d .batchOp)) := by
  have hp' : 0 < aP.length := List.length_pos.mpr hp
  have hne' : mutations.length ≠ 0 := by
    simpa [List.length_eq_zero] using hne
  simp [batch, assertNotDestroyed, hlive, hne', batchBody, hfold, hp', hv]

/-- C5: a `mutate` whose recipe yields an empty forward-patch list is a
complete no-op — the returned machine is the input machine itself, so no
journal entry is written, the state is not replaced, no event is emitted
(ghost trace unchanged) and no notification is scheduled (ghost counter
unchanged); the call reports success. -/
theorem mutate_empty_patches_noop (cfg : Config σ) (m : Machine σ P)
    (r : RecipeFn σ P) (s' : σ) (ip : List P) (d : Option String)
    (hlive : m.isDestroyed = false) (hr : r m.state = .ok (s', [], ip)) :
    mutate cfg m (.fn r) d = (.ok (), m) := by
  simp [mutate, assertNotDestroyed, hlive, mutateBody, hr]

/-- Witness for `mutate_empty_patches_noop` at a concrete input. -/
theorem mutate_empty_patches_noop_witness :
    mutate icfg im0 noopRecipe none = (.ok (), im0) :=
  mutate_empty_patches_noop icfg im0 (fun s => .ok (s, [], [])) 0 [] none rfl rfl

/-- C2: `batch` is all-or-nothing — if any recipe in the list (or its
middleware, both folded into the recipe's realized effect) throws while the
mutations are being reduced, the call throws a `BATCH_ERROR` and the returned
machine differs from the input only by the emitted error event: state, journal,
cursor and scheduled-notification count are exactly those before the call, so
no partial application of earlier recipes is ever visible. -/
theorem batch_atomic_on_throw (cfg : Config σ) (m : Machine σ P)
    (mutations : List (RecipeArg σ P)) (d : Option String) (e : Exc)
    (hlive : m.isDestroyed = false)
    (hfail : batchFold mutations m.state [] [] = .error e) :
    (batch cfg m mutations d).1
        = .error (.machineErr "BATCH_ERROR" "Batch operation failed")
      ∧ (batch cfg m mutations d).2.state = m.state
      ∧ (batch cfg m mutations d).2.history = m.history
      ∧ (batch cfg m mutations d).2.historyIndex = m.historyIndex
      ∧ (batch cfg m mutations d).2.notifyCount = m.notifyCount
      ∧ (batch cfg m mutations d).2
        = emit m (.error e "batch") := by
  have hne' : mutations.length ≠ 0 := by
    intro h0
    rw [List.length_eq_zero] at h0
    subst h0
    simp [batchFold] at hfail
  simp [batch, assertNotDestroyed, hlive, hne', batchBody, hfail, emit]

/-- Witness for `batch_atomic_on_throw`: a two-recipe batch whose second
recipe throws leaves the concrete machine's observable state untouched. -/
theorem batch_atomic_on_throw_witness :
    (batch icfg im0 [setRecipe 0 5, throwRecipe] none).1
        = .error (.machineErr "BATCH_ERROR" "Batch operation failed")
      ∧ (batch icfg im0 [setRecipe 0 5, throwRecipe] none).2.state = im0.state
      ∧ (batch icfg im0 [setRecipe 0 5, throwRecipe] none).2.history = im0.history
      ∧ (batch icfg im0 [setRecipe 0 5, throwRecipe] none).2.historyIndex
        = im0.historyIndex
      ∧ (batch icfg im0 [setRecipe 0 5, throwRecipe] none).2.notifyCount
        = im0.notifyCount
      ∧ (batch icfg im0 [setRecipe 0 5, throwRecipe] none).2
        = emit im0 (.error (.user "boom") "batch") :=
  batch_atomic_on_throw icfg im0 [setRecipe 0 5, throwRecipe] none
    (.user "boom") rfl rfl

/-- C6: middleware executes in onion order — with middlewares `[A, B]` the
observed execution log is `A-pre, B-pre, recipe, B-post, A-post` (for every
context, draft, and recipe effect `f`), and with an empty middleware list the
recipe is invoked directly (`composeMiddleware` returns it unchanged). -/
theorem middleware_onion_order {α : Type} (a₁ a₂ b₁ b₂ rname : String)
    (f : α → α) (ctx : MiddlewareContext α) (d : MwDraft α) :
    (composeMiddleware [traceMiddleware a₁ a₂, traceMiddleware b₁ b₂]
        (traceRecipe rname f) ctx d).log = d.log ++ [a₁, b₁, rname, b₂, a₂]
      ∧ (composeMiddleware [traceMiddleware a₁ a₂, traceMiddleware b₁ b₂]
        (traceRecipe rname f) ctx d).value = f d.value
      ∧ ∀ recipe : MwDraft α → MwDraft α,
        composeMiddleware [] recipe ctx = recipe := by
  refine ⟨?_, rfl, fun recipe => rfl⟩
  simp [composeMiddleware, traceMiddleware, traceRecipe]

/-- C4 (pruning on new write): a successful `mutate` performed while the
cursor may be anywhere valid leaves `canRedo` false immediately, and every
snapshot surviving in the journal is either the newly written one or one of
the first `historyIndex + 1` old snapshots — everything beyond the cursor has
been discarded. -/
theorem mutate_prunes_redo_branch (cfg : Config σ) (m : Machine σ P)
    (r : RecipeFn σ P) (s' : σ) (p ip : List P) (d : Option String)
    (hlive : m.isDestroyed = false) (hidx : -1 ≤ m.historyIndex)
    (hr : r m.state = .ok (s', p, ip)) (hp : p ≠ [])
    (hv : cfg.validateState s' = true) :
    canRedo (mutate cfg m (.fn r) d).2 = false
      ∧ ∀ s ∈ (mutate cfg m (.fn r) d).2.history,
          s = ⟨p, ip, snapDescription d⟩
            ∨ s ∈ m.history.take (m.historyIndex + 1).toNat := by
  rw [mutate_success cfg m r s' p ip d hlive hr hp hv]
  constructor
  · simpa [canRedo, emit, setState]
      using canRedo_saveToHistory cfg m p ip d hidx
  · simpa [emit, setState] using mem_saveToHistory cfg m p ip d hidx

/-
Concrete machines reached by short call sequences (spec section 8 example
scenario: initial `{count: 0}`, set 5, set 9, undo).
-/

/-- After `mutate(set 5, "set5")` from the fresh machine. -/
def imA : Machine Int IPatch := (mutate icfg im0 (setRecipe 0 5) (some "set5")).2

/-- After a further `mutate(set 9, "set9")`. -/
def imB : Machine Int IPatch := (mutate icfg imA (setRecipe 5 9) (some "set9")).2

/-- After a further `undo()` (cursor back to the first snapshot). -/
def imC : Machine Int IPatch := (undo icfg iApply imB).2

/-- Witness for `mutate_prunes_redo_branch`: a fresh mutation performed after
an undo (cursor mid-journal, redo available) leaves redo unavailable. -/
theorem mutate_prunes_redo_branch_witness :
    canUndo imC = true ∧ canRedo imC = true ∧
      (canRedo (mutate icfg imC (setRecipe 5 1) (some "set1")).2 = false
        ∧ ∀ s ∈ (mutate icfg imC (setRecipe 5 1) (some "set1")).2.history,
            s = ⟨[IPatch.set 1], [IPatch.set 5], snapDescription (some "set1")⟩
              ∨ s ∈ imC.history.take (imC.historyIndex + 1).toNat) :=
  ⟨by decide, by decide,
   mutate_prunes_redo_branch icfg imC
     (fun _ => .ok (1, [IPatch.set 1], [IPatch.set 5])) 1
     [IPatch.set 1] [IPatch.set 5] (some "set1")
     (by decide) (by decide) rfl (by decide) rfl⟩

/-- C8 (amended): how `ValidationError`s actually propagate.  (a) When the
`validateState` predicate rejects the candidate state in `mutate`, the
`ValidationError` is rethrown unwrapped to the caller *and* reported via the
error lifecycle event.  (b) In `batch`, the predicate rejection is reported
via the error event but rethrown wrapped as a `BATCH_ERROR`
`StateMachineError`, not as a `ValidationError`.  (c) Malformed input (a
non-callable recipe) throws a `ValidationError` before the `try` block, so it
is NOT reported via the error event.  (d) In every case the machine's state,
journal and cursor are unchanged (`emit` only appends to the event trace). -/
theorem validation_error_propagation (cfg : Config σ) (m : Machine σ P)
    (d : Option String) (hlive : m.isDestroyed = false) :
    (∀ (r : RecipeFn σ P) (s' : σ) (p ip : List P),
      r m.state = .ok (s', p, ip) → p ≠ [] → cfg.validateState s' = false →
        mutate cfg m (.fn r) d =
          (.error (.validation "State validation failed"),
           emit m (.error (.validation "State validation failed") "mutate")))
    ∧ (∀ (mutations : List (RecipeArg σ P)) (fs : σ) (aP aIP : List P),
        batchFold mutations m.state [] [] = .ok (fs, aP, aIP) → aP ≠ [] →
        cfg.validateState fs = false →
          batch cfg m mutations d =
            (.error (.machineErr "BATCH_ERROR" "Batch operation failed"),
             emit m (.error (.validation "State validation failed") "batch")))
    ∧ mutate cfg m .notFunction d
        = (.error (.validation "Recipe must be a function"), m)
    ∧ (∀ r : EmitRecord σ P, (emit m r).state = m.state
        ∧ (emit m r).history = m.history
        ∧ (emit m r).historyIndex = m.historyIndex) := by
  refine ⟨?_, ?_, ?_, ?_⟩
  · intro r s' p ip hr hp hv
    exact mutate_validation_failure cfg m r s' p ip d hlive hr hp hv
  · intro mutations fs aP aIP hfold hp hv
    have hp' : 0 < aP.length := List.length_pos.mpr hp
    have hne' : mutations.length ≠ 0 := by
      intro h0
      rw [List.length_eq_zero] at h0
      subst h0
      simp [batchFold] at hfold
      simp [← hfold.2.1] at hp
    simp [batch, assertNotDestroyed, hlive, hne', batchBody, hfold, hp', hv]
  · simp [mutate, assertNotDestroyed, hlive]
  · intro r
    simp [emit]

/-- Witness for `validation_error_propagation`: a validator that rejects
negative values, a recipe that drives the counter to −1. -/
theorem validation_error_propagation_witness :
    mutate icfgNonneg im0
        (.fn (fun _ => .ok (-1, [IPatch.set (-1)], [IPatch.set 0]))) none =
      (.error (.validation "State validation failed"),
       emit im0 (.error (.validation "State validation failed") "mutate"))
    ∧ mutate icfgNonneg im0 .notFunction none
        = (.error (.validation "Recipe must be a function"), im0) :=
  ⟨(validation_error_propagation icfgNonneg im0 none rfl).1
      (fun _ => .ok (-1, [IPatch.set (-1)], [IPatch.set 0]))
      (-1) [IPatch.set (-1)] [IPatch.set 0] rfl (by decide) rfl,
   (validation_error_propagation icfgNonneg im0 none rfl).2.2.1⟩

/-- Counterexample to C8 as stated: a non-callable recipe raises a
`ValidationError` during a mutation, and the claim asserts every such error
is also reported via the error lifecycle event — but the `typeof` check
throws *before* the `try` block, so the returned machine is the input machine
itself and its event trace is empty: no error event was emitted. -/
theorem notfunction_error_not_reported :
    mutate icfg im0 .notFunction none
        = (.error (.validation "Recipe must be a function"), im0)
      ∧ im0.emits = [] := by
  constructor
  · rfl
  · rfl

/-- C9 (amended): after `destroy()`, the operations `getState`, `subscribe`,
`mutate`, `batch`, `undo`, `redo`, `clearHistory` and `on` all fail fast with
the fatal `DESTROYED` `StateMachineError`; but `canUndo`, `canRedo` and
`getHistoryInfo` perform no destroyed-instance assertion and return normally
(`canUndo` still reads the stale cursor, which `destroy` does not reset). -/
theorem destroyed_instance_fails_fast (cfg : Config σ) (ap : σ → P → σ)
    (m : Machine σ P) (hlive : m.isDestroyed = false) :
    (∀ (r : RecipeArg σ P) (d : Option String),
      (mutate cfg (destroy m) r d).1 = .error destroyedError)
    ∧ (∀ (rs : List (RecipeArg σ P)) (d : Option String),
        (batch cfg (destroy m) rs d).1 = .error destroyedError)
    ∧ (undo cfg ap (destroy m)).1 = .error destroyedError
    ∧ (redo cfg ap (destroy m)).1 = .error destroyedError
    ∧ (getState (destroy m)).1 = .error destroyedError
    ∧ (∀ l, (subscribe (destroy m) l).1 = .error destroyedError)
    ∧ (clearHistory (destroy m)).1 = .error destroyedError
    ∧ (∀ e id, (onEvt (destroy m) e id).1 = .error destroyedError)
    ∧ canUndo (destroy m) = canUndo m
    ∧ canRedo (destroy m) = decide (m.historyIndex < -1)
    ∧ (getHistoryInfo (destroy m)).historyLength = 0 := by
  have hd : destroy m =
      { emit m (.destroyed m.state) with
        isDestroyed := true, listeners := [], history := [],
        eventListeners := none } := by
    simp [destroy, hlive]
  rw [hd]
  refine ⟨?_, ?_, ?_, ?_, ?_, ?_, ?_, ?_, ?_, ?_, ?_⟩ <;>
    simp [mutate, batch, undo, redo, getState, subscribe, clearHistory, onEvt,
      assertNotDestroyed, canUndo, canRedo, getHistoryInfo, emit]

/-- Witness for `destroyed_instance_fails_fast` at a concrete machine. -/
theorem destroyed_instance_fails_fast_witness :
    (mutate icfg (destroy imA) (setRecipe 5 9) none).1 = .error destroyedError
      ∧ (undo icfg iApply (destroy imA)).1 = .error destroyedError
      ∧ canUndo (destroy imA) = canUndo imA := by
  have h := destroyed_instance_fails_fast icfg iApply imA (by decide)
  exact ⟨h.1 (setRecipe 5 9) none, h.2.2.1, h.2.2.2.2.2.2.2.2.1⟩

/-- Counterexample to C9 as stated: the claim requires `canUndo`, `canRedo`
and `getHistoryInfo` to throw a fatal error after `destroy()`; in the code
they carry no destroyed-instance assertion and return normally — here
`canUndo` even returns `true` on a destroyed instance, because `destroy`
empties the journal without resetting the cursor. -/
theorem canUndo_after_destroy_returns :
    (destroy imA).isDestroyed = true
      ∧ canUndo (destroy imA) = true
      ∧ canRedo (destroy imA) = false
      ∧ getHistoryInfo (destroy imA)
        = { canUndo := true, canRedo := false, historyLength := 0,
            currentIndex := 0, lastAction := none } := by
  refine ⟨?_, ?_, ?_, ?_⟩ <;> decide

/-
The lifecycle registry: none of the engine operations touch it
(`emit` only reads it to deliver payloads).
-/

theorem saveToHistory_eventListeners (cfg : Config σ) (m : Machine σ P)
    (p ip : List P) (d : Option String) :
    (saveToHistory cfg m p ip d).eventListeners = m.eventListeners :=
  (saveToHistory_proj cfg m p ip d).2.2.1

theorem mutate_eventListeners (cfg : Config σ) (m : Machine σ P)
    (r : RecipeArg σ P) (d : Option String) :
    (mutate cfg m r d).2.eventListeners = m.eventListeners := by
  unfold mutate
  repeat' split
  all_goals dsimp only
  repeat' split
  all_goals first
  | rfl
  | simp [emit, setState, saveToHistory_eventListeners]

theorem batch_eventListeners (cfg : Config σ) (m : Machine σ P)
    (rs : List (RecipeArg σ P)) (d : Option String) :
    (batch cfg m rs d).2.eventListeners = m.eventListeners := by
  unfold batch
  repeat' split
  all_goals dsimp only
  repeat' split
  all_goals first
  | rfl
  | simp [emit, setState, saveToHistory_eventListeners]

theorem undo_eventListeners (cfg : Config σ) (ap : σ → P → σ)
    (m : Machine σ P) :
    (undo cfg ap m).2.eventListeners = m.eventListeners := by
  unfold undo
  repeat' split
  all_goals dsimp only
  repeat' split
  all_goals first
  | rfl
  | simp [emit, setState]

theorem redo_eventListeners (cfg : Config σ) (ap : σ → P → σ)
    (m : Machine σ P) :
    (redo cfg ap m).2.eventListeners = m.eventListeners := by
  unfold redo
  repeat' split
  all_goals dsimp only
  repeat' split
  all_goals first
  | rfl
  | simp [emit, setState]

theorem runOps_eventListeners_none (cfg : Config σ) (ap : σ → P → σ) :
    ∀ (ops : List (Op σ P)) (m : Machine σ P),
      (∀ op ∈ ops, op.isEngineOp = true) → m.eventListeners = none →
      (runOps cfg ap m ops).eventListeners = none := by
  intro ops
  induction ops with
  | nil => intro m _ h; exact h
  | cons op rest ih =>
    intro m heng h
    have hop := heng op (List.mem_cons_self op rest)
    have hstep : (step cfg ap m op).eventListeners = none := by
      cases op with
      | mutateOp r d => rw [step, mutate_eventListeners]; exact h
      | batchOp rs d => rw [step, batch_eventListeners]; exact h
      | undoOp => rw [step, undo_eventListeners]; exact h
      | redoOp => rw [step, redo_eventListeners]; exact h
      | clearHistoryOp => simp [Op.isEngineOp] at hop
      | subscribeOp l => simp [Op.isEngineOp] at hop
      | onOp e id => simp [Op.isEngineOp] at hop
      | offOp e id => simp [Op.isEngineOp] at hop
    exact ih (step cfg ap m op)
      (fun o ho => heng o (List.mem_cons_of_mem op ho)) hstep

/-- C10: the lifecycle listener registry is zero-cost when unused.  (a) If
`on` is never called, the registry stays unallocated (`none`) across any
sequence of `mutate` / `batch` / `undo` / `redo` calls.  (b) The registry is
allocated lazily by the first subscription on a live machine.  (c) When the
last listener across all event kinds is removed, the registry is reset to the
unallocated state. -/
theorem lazy_listener_registry (cfg : Config σ) (ap : σ → P → σ) :
    (∀ (ops : List (Op σ P)) (m : Machine σ P),
      (∀ op ∈ ops, op.isEngineOp = true) → m.eventListeners = none →
        (runOps cfg ap m ops).eventListeners = none)
    ∧ (∀ (m : Machine σ P) (e : LifecycleEvent) (id : Nat),
        m.isDestroyed = false → m.eventListeners = none →
          (onEvt m e id).2.eventListeners = some [(e, [id])])
    ∧ (∀ (m : Machine σ P) (e : LifecycleEvent) (id : Nat),
        m.eventListeners = some [(e, [id])] →
          (off m e id).eventListeners = none) := by
  refine ⟨runOps_eventListeners_none cfg ap, ?_, ?_⟩
  · intro m e id hlive hnone
    simp [onEvt, assertNotDestroyed, hlive, hnone, regGet, regSet]
  · intro m e id hone
    simp [off, hone, regGet, regErase, List.find?]

/-- Witness for `lazy_listener_registry` at concrete inputs: two mutations
and an undo leave the registry unallocated; one subscription allocates it;
removing that sole listener frees it. -/
theorem lazy_listener_registry_witness :
    (runOps icfg iApply im0
        [.mutateOp (setRecipe 0 5) none, .mutateOp (setRecipe 5 9) none,
         .undoOp]).eventListeners = none
      ∧ (onEvt im0 .afterMutate 7).2.eventListeners
        = some [(.afterMutate, [7])]
      ∧ (off (onEvt im0 .afterMutate 7).2 .afterMutate 7).eventListeners
        = none := by
  have h := lazy_listener_registry icfg iApply (σ := Int) (P := IPatch)
  refine ⟨h.1 _ im0 (by decide) rfl, h.2.1 im0 .afterMutate 7 rfl rfl, ?_⟩
  exact h.2.2 (onEvt im0 .afterMutate 7).2 .afterMutate 7
    (h.2.1 im0 .afterMutate 7 rfl rfl)

/-
Preservation of the journal invariant by every public operation.
-/

theorem JournalInvariant_mutate (cfg : Config σ) (m : Machine σ P)
    (recipe : RecipeArg σ P) (d : Option String)
    (hmax : 1 ≤ cfg.maxHistorySize) (hinv : JournalInvariant cfg m) :
    JournalInvariant cfg (mutate cfg m recipe d).2 := by
  unfold mutate
  repeat' split
  all_goals dsimp only
  repeat' split
  all_goals first
  | exact hinv
  | exact JournalInvariant_saveToHistory cfg m _ _ _ hmax hinv

theorem JournalInvariant_batch (cfg : Config σ) (m : Machine σ P)
    (rs : List (RecipeArg σ P)) (d : Option String)
    (hmax : 1 ≤ cfg.maxHistorySize) (hinv : JournalInvariant cfg m) :
    JournalInvariant cfg (batch cfg m rs d).2 := by
  unfold batch
  repeat' split
  all_goals dsimp only
  repeat' split
  all_goals first
  | exact hinv
  | exact JournalInvariant_saveToHistory cfg m _ _ _ hmax hinv

theorem JournalInvariant_undo (cfg : Config σ) (ap : σ → P → σ)
    (m : Machine σ P) (hinv : JournalInvariant cfg m) :
    JournalInvariant cfg (undo cfg ap m).2 := by
  obtain ⟨ha, hb, hc⟩ := hinv
  unfold undo
  split
  · exact ⟨ha, hb, hc⟩
  · split
    · exact ⟨ha, hb, hc⟩
    · next hcu =>
      split
      · exact ⟨ha, hb, hc⟩
      · next snapshot hsnap =>
        dsimp only
        split
        · have h0 : 0 ≤ m.historyIndex := by simpa [canUndo] using hcu
          refine ⟨?_, ?_, ?_⟩ <;> simp only [emit, setState] <;> omega
        · exact ⟨ha, hb, hc⟩

theorem JournalInvariant_redo (cfg : Config σ) (ap : σ → P → σ)
    (m : Machine σ P) (hinv : JournalInvariant cfg m) :
    JournalInvariant cfg (redo cfg ap m).2 := by
  obtain ⟨ha, hb, hc⟩ := hinv
  unfold redo
  split
  · exact ⟨ha, hb, hc⟩
  · split
    · exact ⟨ha, hb, hc⟩
    · next hcr =>
      split
      · exact ⟨ha, hb, hc⟩
      · next snapshot hsnap =>
        dsimp only
        split
        · have h0 : m.historyIndex + 1 < (m.history.length : Int) := by
            simpa [canRedo] using hcr
          refine ⟨?_, ?_, ?_⟩ <;> simp only [emit, setState] <;> omega
        · exact ⟨ha, hb, hc⟩

theorem JournalInvariant_clearHistory (cfg : Config σ) (m : Machine σ P)
    (hinv : JournalInvariant cfg m) :
    JournalInvariant cfg (clearHistory m).2 := by
  unfold clearHistory
  split
  · exact hinv
  · exact ⟨by simp, by simp, by simp⟩

theorem JournalInvariant_subscribe (cfg : Config σ) (m : Machine σ P)
    (l : ListenerArg) (hinv : JournalInvariant cfg m) :
    JournalInvariant cfg (subscribe m l).2 := by
  unfold subscribe
  repeat' split
  all_goals exact hinv

theorem JournalInvariant_onEvt (cfg : Config σ) (m : Machine σ P)
    (e : LifecycleEvent) (id : Nat) (hinv : JournalInvariant cfg m) :
    JournalInvariant cfg (onEvt m e id).2 := by
  unfold onEvt
  repeat' split
  all_goals exact hinv

theorem JournalInvariant_off (cfg : Config σ) (m : Machine σ P)
    (e : LifecycleEvent) (id : Nat) (hinv : JournalInvariant cfg m) :
    JournalInvariant cfg (off m e id) := by
  unfold off
  repeat' split
  all_goals try dsimp only
  repeat' split
  all_goals exact hinv

theorem JournalInvariant_step (cfg : Config σ) (ap : σ → P → σ)
    (m : Machine σ P) (op : Op σ P) (hmax : 1 ≤ cfg.maxHistorySize)
    (hinv : JournalInvariant cfg m) :
    JournalInvariant cfg (step cfg ap m op) := by
  cases op with
  | mutateOp r d => exact JournalInvariant_mutate cfg m r d hmax hinv
  | batchOp rs d => exact JournalInvariant_batch cfg m rs d hmax hinv
  | undoOp => exact JournalInvariant_undo cfg ap m hinv
  | redoOp => exact JournalInvariant_redo cfg ap m hinv
  | clearHistoryOp => exact JournalInvariant_clearHistory cfg m hinv
  | subscribeOp l => exact JournalInvariant_subscribe cfg m l hinv
  | onOp e id => exact JournalInvariant_onEvt cfg m e id hinv
  | offOp e id => exact JournalInvariant_off cfg m e id hinv

theorem JournalInvariant_runOps (cfg : Config σ) (ap : σ → P → σ)
    (hmax : 1 ≤ cfg.maxHistorySize) :
    ∀ (ops : List (Op σ P)) (m : Machine σ P), JournalInvariant cfg m →
      JournalInvariant cfg (runOps cfg ap m ops) := by
  intro ops
  induction ops with
  | nil => intro m h; exact h
  | cons op rest ih =>
    intro m h
    exact ih (step cfg ap m op) (JournalInvariant_step cfg ap m op hmax h)

/-- How one `undo` call moves the cursor: on success (`ok true`) the cursor
was nonnegative and is decremented; otherwise the machine's journal and cursor
are untouched.  The journal itself is never modified by `undo`. -/
theorem undo_cursor_cases (cfg : Config σ) (ap : σ → P → σ)
    (m : Machine σ P) :
    ((undo cfg ap m).1 = .ok true ∧ 0 ≤ m.historyIndex
      ∧ (undo cfg ap m).2.historyIndex = m.historyIndex - 1
      ∧ (undo cfg ap m).2.history = m.history)
    ∨ ((undo cfg ap m).1 ≠ .ok true
      ∧ (undo cfg ap m).2.historyIndex = m.historyIndex
      ∧ (undo cfg ap m).2.history = m.history) := by
  unfold undo
  split
  · exact Or.inr ⟨by simp, rfl, rfl⟩
  · split
    · exact Or.inr ⟨by simp, rfl, rfl⟩
    · next hcu =>
      split
      · exact Or.inr ⟨by simp, rfl, rfl⟩
      · next snapshot hsnap =>
        dsimp only
        split
        · have h0 : 0 ≤ m.historyIndex := by simpa [canUndo] using hcu
          exact Or.inl
            ⟨rfl, h0, by simp [emit, setState], by simp [emit, setState]⟩
        · exact Or.inr ⟨by simp, by simp [emit], by simp [emit]⟩

/-- The number of successful undos among `n` consecutive `undo` calls. -/
def undoSuccessCount (cfg : Config σ) (ap : σ → P → σ) :
    Nat → Machine σ P → Nat
  | 0, _ => 0
  | n + 1, m =>
    match undo cfg ap m with
    | (.ok true, m') => 1 + undoSuccessCount cfg ap n m'
    | (_, m') => undoSuccessCount cfg ap n m'

theorem undoSuccessCount_le (cfg : Config σ) (ap : σ → P → σ) :
    ∀ (n : Nat) (m : Machine σ P),
      undoSuccessCount cfg ap n m ≤ (m.historyIndex + 1).toNat := by
  intro n
  induction n with
  | zero => intro m; simp [undoSuccessCount]
  | succ k ih =>
    intro m
    rcases undo_cursor_cases cfg ap m with ⟨h1, h0, h2, _⟩ | ⟨h1, h2, _⟩ <;>
      rcases hcase : undo cfg ap m with ⟨r, m'⟩ <;>
      rw [hcase] at h1 h2 <;> simp only at h1 h2
    · subst h1
      have := ih m'
      simp only [undoSuccessCount, hcase]
      omega
    · have := ih m'
      rcases r with e | b
      · simp only [undoSuccessCount, hcase]
        omega
      · rcases b with _ | _
        · simp only [undoSuccessCount, hcase]
          omega
        · simp at h1

/-- C3 (amended: "every operation" excludes `destroy()`, which empties the
journal without resetting the cursor — see the counterexample).  The journal
is bounded and the cursor stays valid: (1) the invariant
`history.length ≤ maxHistorySize ∧ −1 ≤ historyIndex < history.length` is
preserved by every sequence of mutate/batch/undo/redo/clearHistory/
subscribe/on/off calls; (2) under the invariant, `getHistoryInfo` reports a
length of at most `maxHistorySize` and a valid cursor; (3) under the
invariant, at most `maxHistorySize` of any `n` consecutive `undo` calls can
succeed; (4) a snapshot written with the journal at capacity (cursor at the
end) evicts the oldest snapshot and leaves the cursor decremented relative to
the usual advance. -/
theorem journal_bounded_cursor_valid (cfg : Config σ) (ap : σ → P → σ)
    (hmax : 1 ≤ cfg.maxHistorySize) :
    (∀ (m : Machine σ P) (ops : List (Op σ P)), JournalInvariant cfg m →
        JournalInvariant cfg (runOps cfg ap m ops))
    ∧ (∀ m : Machine σ P, JournalInvariant cfg m →
        (getHistoryInfo m).historyLength ≤ cfg.maxHistorySize
          ∧ -1 ≤ (getHistoryInfo m).currentIndex
          ∧ (getHistoryInfo m).currentIndex
            < ((getHistoryInfo m).historyLength : Int))
    ∧ (∀ (m : Machine σ P) (n : Nat), JournalInvariant cfg m →
        undoSuccessCount cfg ap n m ≤ cfg.maxHistorySize)
    ∧ (∀ (m : Machine σ P) (p ip : List P) (d : Option String),
        m.historyIndex = (m.history.length : Int) - 1 →
        m.history.length = cfg.maxHistorySize →
          (saveToHistory cfg m p ip d).history
              = m.history.drop 1 ++ [⟨p, ip, snapDescription d⟩]
            ∧ (saveToHistory cfg m p ip d).historyIndex = m.historyIndex) := by
  refine ⟨?_, ?_, ?_, ?_⟩
  · intro m ops hinv
    exact JournalInvariant_runOps cfg ap hmax ops m hinv
  · intro m hinv
    obtain ⟨ha, hb, hc⟩ := hinv
    exact ⟨ha, hb, hc⟩
  · intro m n hinv
    obtain ⟨ha, hb, hc⟩ := hinv
    have h := undoSuccessCount_le cfg ap n m
    omega
  · intro m p ip d hidx hcap
    unfold saveToHistory
    split
    · omega
    · dsimp only
      split
      · refine ⟨?_, ?_⟩ <;> dsimp only
        · rw [List.drop_append_of_le_length (by omega)]
        · omega
      · next hev =>
        exfalso
        simp only [List.length_append, List.length_cons, List.length_nil,
          Nat.not_lt] at hev
        omega

/-- Witness for `journal_bounded_cursor_valid`: with `maxHistorySize = 1`,
two mutations and an undo preserve the invariant, at most one of five undo
attempts succeeds, and the second snapshot evicts the first. -/
theorem journal_bounded_cursor_valid_witness :
    JournalInvariant icfg1
        (runOps icfg1 iApply im0
          [.mutateOp (setRecipe 0 5) none, .mutateOp (setRecipe 5 9) none,
           .undoOp])
      ∧ undoSuccessCount icfg1 iApply 5
          (runOps icfg1 iApply im0
            [.mutateOp (setRecipe 0 5) none,
             .mutateOp (setRecipe 5 9) none]) ≤ 1
      ∧ (saveToHistory icfg1 (mutate icfg1 im0 (setRecipe 0 5) none).2
            [IPatch.set 9] [IPatch.set 5] none).history
          = (mutate icfg1 im0 (setRecipe 0 5) none).2.history.drop 1
              ++ [⟨[IPatch.set 9], [IPatch.set 5], none⟩]
      := by
  have h := journal_bounded_cursor_valid icfg1 iApply (by decide)
  refine ⟨h.1 im0 _ ⟨by decide, by decide, by decide⟩, h.2.2.1 _ 5 ?_, ?_⟩
  · exact h.1 im0 [.mutateOp (setRecipe 0 5) none,
      .mutateOp (setRecipe 5 9) none] ⟨by decide, by decide, by decide⟩
  · exact (h.2.2.2 (mutate icfg1 im0 (setRecipe 0 5) none).2
      [IPatch.set 9] [IPatch.set 5] none (by decide) (by decide)).1

/-- Counterexample to C3 as stated: the claim requires
`−1 ≤ historyIndex < history.length` after *every* operation, but `destroy()`
empties the journal while leaving the cursor where it was, so after one
mutation followed by `destroy()` the cursor (0) is not below the journal
length (0). -/
theorem cursor_invalid_after_destroy :
    (destroy imA).historyIndex = 0
      ∧ (destroy imA).history.length = 0
      ∧ ¬ ((destroy imA).historyIndex
            < ((destroy imA).history.length : Int)) := by
  refine ⟨by decide, by decide, by decide⟩

/-
Round-trip machinery.  A run of successful mutations is described by its
realized steps: for each recipe, the state it produced and the forward and
inverse patch lists the codec returned for it.  The `Chain` predicate states
exactly the codec guarantee (spec section 3, Snapshot invariant): applying the
forward patches to the previous state yields the next state, and applying the
inverse patches to the next state restores the previous state; `Chain` also
carries the fact that each produced state passes the validator (with the
always-true validator it degenerates to the pure codec conditions).
-/

/-- One realized successful-mutation step. -/
structure MStep (σ P : Type) where
  next : σ
  patches : List P
  inversePatches : List P

/-- The state at the end of a run of steps anchored at `s`. -/
def lastState (s : σ) : List (MStep σ P) → σ
  | [] => s
  | t :: rest => lastState t.next rest

/-- The codec-coherence (and validation) conditions along a run. -/
def Chain (ap : σ → P → σ) (v : σ → Bool) : σ → List (MStep σ P) → Prop
  | _, [] => True
  | s, t :: rest =>
      v t.next = true ∧ applyPatches ap s t.patches = t.next
        ∧ applyPatches ap t.next t.inversePatches = s ∧ Chain ap v t.next rest

/-- The snapshot `saveToHistory` writes for a step mutated with no
description. -/
def snapOf (t : MStep σ P) : Snapshot P :=
  { patches := t.patches, inversePatches := t.inversePatches,
    description := none }

/-- The recipe whose realized effect is the given step. -/
def stepRecipe (t : MStep σ P) : RecipeArg σ P :=
  .fn (fun _ => .ok (t.next, t.patches, t.inversePatches))

/-- Run one `mutate` call per step. -/
def runMutations (cfg : Config σ) : Machine σ P → List (MStep σ P) → Machine σ P
  | m, [] => m
  | m, t :: rest => runMutations cfg (mutate cfg m (stepRecipe t) none).2 rest

/-- Call `undo` until `canUndo` is false (at most `n` times), collecting the
state held immediately before each undo performed. -/
def undoAll (cfg : Config σ) (ap : σ → P → σ) :
    Nat → Machine σ P → Machine σ P × List σ
  | 0, m => (m, [])
  | n + 1, m =>
    if canUndo m then
      let r := undoAll cfg ap n (undo cfg ap m).2
      (r.1, m.state :: r.2)
    else (m, [])

/-- Call `redo` while `canRedo` holds (at most `n` times), collecting the
state reached after each redo performed. -/
def redoAll (cfg : Config σ) (ap : σ → P → σ) :
    Nat → Machine σ P → Machine σ P × List σ
  | 0, m => (m, [])
  | n + 1, m =>
    if canRedo m then
      let r := redoAll cfg ap n (redo cfg ap m).2
      (r.1, (redo cfg ap m).2.state :: r.2)
    else (m, [])

theorem applyPatches_append (ap : σ → P → σ) (s : σ) (a b : List P) :
    applyPatches ap s (a ++ b) = applyPatches ap (applyPatches ap s a) b := by
  simp [applyPatches, List.foldl_append]

theorem lastState_concat (y : MStep σ P) :
    ∀ (xs : List (MStep σ P)) (s : σ), lastState s (xs ++ [y]) = y.next := by
  intro xs
  induction xs with
  | nil => intro s; rfl
  | cons t rest ih => intro s; exact ih t.next

theorem chain_concat (ap : σ → P → σ) (v : σ → Bool) (y : MStep σ P) :
    ∀ (xs : List (MStep σ P)) (s : σ),
      Chain ap v s (xs ++ [y]) ↔
        (Chain ap v s xs ∧ v y.next = true
          ∧ applyPatches ap (lastState s xs) y.patches = y.next
          ∧ applyPatches ap y.next y.inversePatches = lastState s xs) := by
  intro xs
  induction xs with
  | nil => intro s; simp [Chain, lastState]
  | cons t rest ih =>
    intro s
    rw [List.cons_append]
    constructor
    · rintro ⟨hv, hf, hi, hrest⟩
      rw [ih t.next] at hrest
      exact ⟨⟨hv, hf, hi, hrest.1⟩, hrest.2.1, hrest.2.2.1, hrest.2.2.2⟩
    · rintro ⟨⟨hv, hf, hi, hrest⟩, hy1, hy2, hy3⟩
      exact ⟨hv, hf, hi, (ih t.next).mpr ⟨hrest, hy1, hy2, hy3⟩⟩

theorem chain_valid_last (ap : σ → P → σ) (v : σ → Bool) :
    ∀ (steps : List (MStep σ P)) (s : σ),
      Chain ap v s steps → v s = true → v (lastState s steps) = true := by
  intro steps
  induction steps with
  | nil => intro s _ h; exact h
  | cons t rest ih =>
    intro s hch _
    exact ih t.next hch.2.2.2 hch.1

/-- Evaluation of a successful `undo` call. -/
theorem undo_success_eval (cfg : Config σ) (ap : σ → P → σ)
    (m : Machine σ P) (snapshot : Snapshot P)
    (hlive : m.isDestroyed = false) (hcu : 0 ≤ m.historyIndex)
    (hsnap : getAtInt m.history m.historyIndex = some snapshot)
    (hval : cfg.validateState
      (applyPatches ap m.state snapshot.inversePatches) = true) :
    undo cfg ap m =
      (.ok true,
       emit (setState { m with historyIndex := m.historyIndex - 1 }
           (applyPatches ap m.state snapshot.inversePatches) false)
         (.afterMutate (applyPatches ap m.state snapshot.inversePatches)
           snapshot.inversePatches snapshot.patches snapshot.description
           .undoOp)) := by
  unfold undo
  simp [assertNotDestroyed, hlive, canUndo, hcu, hsnap, hval]

/-- Evaluation of a successful `redo` call. -/
theorem redo_success_eval (cfg : Config σ) (ap : σ → P → σ)
    (m : Machine σ P) (snapshot : Snapshot P)
    (hlive : m.isDestroyed = false)
    (hcr : m.historyIndex < (m.history.length : Int) - 1)
    (hsnap : getAtInt m.history (m.historyIndex + 1) = some snapshot)
    (hval : cfg.validateState
      (applyPatches ap m.state snapshot.patches) = true) :
    redo cfg ap m =
      (.ok true,
       emit (setState { m with historyIndex := m.historyIndex + 1 }
           (applyPatches ap m.state snapshot.patches) false)
         (.afterMutate (applyPatches ap m.state snapshot.patches)
           snapshot.patches snapshot.inversePatches snapshot.description
           .redoOp)) := by
  unfold redo
  simp [assertNotDestroyed, hlive, canRedo, hcr, hsnap, hval]

/-- Field-level view of a successful `mutate`. -/
theorem mutate_success_fields (cfg : Config σ) (m : Machine σ P)
    (r : RecipeFn σ P) (s' : σ) (p ip : List P) (d : Option String)
    (hlive : m.isDestroyed = false) (hr : r m.state = .ok (s', p, ip))
    (hp : p ≠ []) (hv : cfg.validateState s' = true) :
    (mutate cfg m (.fn r) d).2.state = s'
    ∧ (mutate cfg m (.fn r) d).2.history = (saveToHistory cfg m p ip d).history
    ∧ (mutate cfg m (.fn r) d).2.historyIndex
        = (saveToHistory cfg m p ip d).historyIndex
    ∧ (mutate cfg m (.fn r) d).2.isDestroyed = false := by
  rw [mutate_success cfg m r s' p ip d hlive hr hp hv]
  refine ⟨by simp [emit, setState], by simp [emit, setState],
    by simp [emit, setState], ?_⟩
  simp only [emit, setState]
  rw [(saveToHistory_proj cfg m p ip d).2.1]
  exact hlive

/-- `mutate_success_fields` specialized to a realized step. -/
theorem mutate_step_fields (cfg : Config σ) (m : Machine σ P) (t : MStep σ P)
    (hlive : m.isDestroyed = false) (hp : t.patches ≠ [])
    (hv : cfg.validateState t.next = true) :
    (mutate cfg m (stepRecipe t) none).2.state = t.next
    ∧ (mutate cfg m (stepRecipe t) none).2.history
        = (saveToHistory cfg m t.patches t.inversePatches none).history
    ∧ (mutate cfg m (stepRecipe t) none).2.historyIndex
        = (saveToHistory cfg m t.patches t.inversePatches none).historyIndex
    ∧ (mutate cfg m (stepRecipe t) none).2.isDestroyed = false :=
  mutate_success_fields cfg m _ t.next t.patches t.inversePatches none
    hlive rfl hp hv

/-- JavaScript indexing at the length of a prefix retrieves the head of the
remainder. -/
theorem getAtInt_append (A B : List (Snapshot P)) :
    getAtInt (A ++ B) (A.length : Int) = B.get? 0 := by
  unfold getAtInt
  rw [if_neg (by omega)]
  simp
  rw [List.getElem?_append_right (le_refl _)]
  simp

/-- The shape of the machine after a run of successful mutations that fits
inside the journal capacity: each step appends one snapshot, the cursor stays
at the end, and the state is the last realized state. -/
theorem runMutations_shape (cfg : Config σ) (ap : σ → P → σ) :
    ∀ (steps : List (MStep σ P)) (m : Machine σ P),
      m.isDestroyed = false →
      Chain ap cfg.validateState m.state steps →
      (∀ t ∈ steps, t.patches ≠ []) →
      m.historyIndex = (m.history.length : Int) - 1 →
      m.history.length + steps.length ≤ cfg.maxHistorySize →
      (runMutations cfg m steps).state = lastState m.state steps
      ∧ (runMutations cfg m steps).history = m.history ++ steps.map snapOf
      ∧ (runMutations cfg m steps).historyIndex
          = (m.history.length : Int) + steps.length - 1
      ∧ (runMutations cfg m steps).isDestroyed = false := by
  intro steps
  induction steps with
  | nil =>
    intro m h1 _ _ h4 _
    refine ⟨rfl, by simp [runMutations], ?_, h1⟩
    simp only [runMutations, List.length_nil]
    rw [h4]
    simp
  | cons t rest ih =>
    intro m h1 hch hp h4 h5
    simp only [List.length_cons] at h5
    obtain ⟨hv, hf, hi, hc⟩ := hch
    have hpne : t.patches ≠ [] := hp t (List.mem_cons_self _ _)
    have hflds := mutate_step_fields cfg m t h1 hpne hv
    have hsv := saveToHistory_no_evict cfg m t.patches t.inversePatches none
      h4 (by omega)
    have hrun : runMutations cfg m (t :: rest)
        = runMutations cfg (mutate cfg m (stepRecipe t) none).2 rest := rfl
    have hst : (mutate cfg m (stepRecipe t) none).2.state = t.next := hflds.1
    have hhis : (mutate cfg m (stepRecipe t) none).2.history
        = m.history ++ [snapOf t] := by
      rw [hflds.2.1, hsv.1]
      rfl
    have hidx : (mutate cfg m (stepRecipe t) none).2.historyIndex
        = (((mutate cfg m (stepRecipe t) none).2.history.length : Int)) - 1 := by
      rw [hflds.2.2.1, hsv.2, h4, hhis]
      simp
    have hch' : Chain ap cfg.validateState
        (mutate cfg m (stepRecipe t) none).2.state rest := hst ▸ hc
    have hlen' : (mutate cfg m (stepRecipe t) none).2.history.length
        + rest.length ≤ cfg.maxHistorySize := by
      rw [hhis]
      simp only [List.length_append, List.length_cons, List.length_nil]
      omega
    have hmain := ih (mutate cfg m (stepRecipe t) none).2 hflds.2.2.2 hch'
      (fun u hu => hp u (List.mem_cons_of_mem _ hu)) hidx hlen'
    refine ⟨?_, ?_, ?_, hrun ▸ hmain.2.2.2⟩
    · rw [hrun, hmain.1, hst]
      rfl
    · rw [hrun, hmain.2.1, hhis]
      simp
    · rw [hrun, hmain.2.2.1, hhis]
      simp only [List.length_append, List.length_cons, List.length_nil,
        List.map_cons]
      push_cast
      omega

/-- Undoing as many times as there are steps walks the cursor back to −1 and
restores the anchor state; the collected pre-undo states are the realized
states in reverse order.  `rest` is whatever the journal holds beyond the
cursor (undo never modifies the journal). -/
theorem undoAll_reaches_anchor (cfg : Config σ) (ap : σ → P → σ) :
    ∀ (steps : List (MStep σ P)) (rest : List (Snapshot P)) (s₀ : σ)
      (m : Machine σ P),
      m.isDestroyed = false → cfg.validateState s₀ = true →
      Chain ap cfg.validateState s₀ steps →
      m.history = steps.map snapOf ++ rest →
      m.historyIndex = (steps.length : Int) - 1 →
      m.state = lastState s₀ steps →
      (undoAll cfg ap steps.length m).1.state = s₀
      ∧ (undoAll cfg ap steps.length m).1.historyIndex = -1
      ∧ (undoAll cfg ap steps.length m).1.history = m.history
      ∧ (undoAll cfg ap steps.length m).1.isDestroyed = false
      ∧ canUndo (undoAll cfg ap steps.length m).1 = false
      ∧ (undoAll cfg ap steps.length m).2
          = (steps.map (fun t => t.next)).reverse := by
  intro steps
  induction steps using List.reverseRecOn with
  | nil =>
    intro rest s₀ m h1 _ _ _ hi hs
    refine ⟨hs, by simpa using hi, rfl, h1, ?_, rfl⟩
    have hi' : m.historyIndex = -1 := by simpa using hi
    simp only [List.length_nil, undoAll, canUndo, decide_eq_false_iff_not,
      not_le]
    omega
  | append_singleton xs y ih =>
    intro rest s₀ m h1 hv0 hch hh hi hs
    rw [chain_concat] at hch
    obtain ⟨hchxs, hvy, hfy, hiy⟩ := hch
    have hlen : (xs ++ [y]).length = xs.length + 1 := by simp
    have hidx' : m.historyIndex = (xs.length : Int) := by
      rw [hi, hlen]
      push_cast
      omega
    have hcu : canUndo m = true := by
      simp [canUndo, hidx']
    have hh' : m.history = xs.map snapOf ++ (snapOf y :: rest) := by
      rw [hh]
      simp
    have hsnap : getAtInt m.history m.historyIndex = some (snapOf y) := by
      rw [hh', hidx']
      have := getAtInt_append (xs.map snapOf) (snapOf y :: rest)
      simpa using this
    have hnew : applyPatches ap m.state (snapOf y).inversePatches
        = lastState s₀ xs := by
      rw [hs, lastState_concat]
      exact hiy
    have hvnew : cfg.validateState
        (applyPatches ap m.state (snapOf y).inversePatches) = true := by
      rw [hnew]
      exact chain_valid_last ap cfg.validateState xs s₀ hchxs hv0
    have heval := undo_success_eval cfg ap m (snapOf y) h1
      (by omega) hsnap hvnew
    have hm1state : (undo cfg ap m).2.state = lastState s₀ xs := by
      rw [heval]
      simpa [emit, setState] using hnew
    have hm1idx : (undo cfg ap m).2.historyIndex = (xs.length : Int) - 1 := by
      rw [heval]
      simp [emit, setState, hidx']
    have hm1h : (undo cfg ap m).2.history
        = xs.map snapOf ++ (snapOf y :: rest) := by
      rw [heval]
      simpa [emit, setState] using hh'
    have hm1live : (undo cfg ap m).2.isDestroyed = false := by
      rw [heval]
      simpa [emit, setState] using h1
    have hmain := ih (snapOf y :: rest) s₀ (undo cfg ap m).2 hm1live hv0
      hchxs hm1h hm1idx hm1state
    have hstepeq : undoAll cfg ap (xs ++ [y]).length m
        = ((undoAll cfg ap xs.length (undo cfg ap m).2).1,
           m.state :: (undoAll cfg ap xs.length (undo cfg ap m).2).2) := by
      rw [hlen]
      simp only [undoAll, hcu, if_true]
    rw [hstepeq]
    refine ⟨hmain.1, hmain.2.1, ?_, hmain.2.2.2.1, hmain.2.2.2.2.1, ?_⟩
    · rw [hmain.2.2.1, hm1h, hh']
    · simp only [hmain.2.2.2.2.2, hs, lastState_concat, List.map_append,
        List.map_cons, List.map_nil, List.reverse_append, List.reverse_cons,
        List.reverse_nil, List.nil_append, List.cons_append]

/-- Redoing as many times as there are remaining steps replays them in order:
the collected post-redo states are exactly the realized states, in order, and
the cursor ends at the end of the journal.  `done` is the journal prefix
already at or before the cursor. -/
theorem redoAll_replays (cfg : Config σ) (ap : σ → P → σ) :
    ∀ (steps : List (MStep σ P)) (done : List (Snapshot P))
      (m : Machine σ P),
      m.isDestroyed = false →
      Chain ap cfg.validateState m.state steps →
      m.history = done ++ steps.map snapOf →
      m.historyIndex = (done.length : Int) - 1 →
      (redoAll cfg ap steps.length m).1.state = lastState m.state steps
      ∧ (redoAll cfg ap steps.length m).1.historyIndex
          = (m.history.length : Int) - 1
      ∧ (redoAll cfg ap steps.length m).1.history = m.history
      ∧ (redoAll cfg ap steps.length m).2 = steps.map (fun t => t.next) := by
  intro steps
  induction steps with
  | nil =>
    intro done m h1 _ hh hi
    refine ⟨rfl, ?_, rfl, rfl⟩
    show m.historyIndex = (m.history.length : Int) - 1
    rw [hi, hh]
    simp
  | cons t rest ih =>
    intro done m h1 hch hh hi
    obtain ⟨hv, hf, hvinv, hc⟩ := hch
    have hcr : canRedo m = true := by
      simp only [canRedo, decide_eq_true_eq]
      rw [hi, hh]
      simp only [List.length_append, List.length_map, List.length_cons]
      push_cast
      omega
    have hsnap : getAtInt m.history (m.historyIndex + 1) = some (snapOf t) :=
      by
      rw [hh, hi]
      have h0 : (done.length : Int) - 1 + 1 = (done.length : Int) := by omega
      rw [h0]
      have := getAtInt_append done (snapOf t :: rest.map snapOf)
      simpa using this
    have hvnew : cfg.validateState
        (applyPatches ap m.state (snapOf t).patches) = true := by
      have : applyPatches ap m.state (snapOf t).patches = t.next := hf
      rw [this]
      exact hv
    have hcr' : m.historyIndex < (m.history.length : Int) - 1 := by
      have := hcr
      simpa [canRedo] using this
    have heval := redo_success_eval cfg ap m (snapOf t) h1 hcr' hsnap hvnew
    have hm1state : (redo cfg ap m).2.state = t.next := by
      rw [heval]
      simpa [emit, setState] using hf
    have hm1idx : (redo cfg ap m).2.historyIndex
        = ((done ++ [snapOf t]).length : Int) - 1 := by
      rw [heval]
      simp only [emit, setState]
      rw [hi]
      simp
    have hm1h : (redo cfg ap m).2.history
        = (done ++ [snapOf t]) ++ rest.map snapOf := by
      rw [heval]
      simp only [emit, setState]
      rw [hh]
      simp
    have hm1live : (redo cfg ap m).2.isDestroyed = false := by
      rw [heval]
      simpa [emit, setState] using h1
    have hch' : Chain ap cfg.validateState (redo cfg ap m).2.state rest := by
      rw [hm1state]
      exact hc
    have hmain := ih (done ++ [snapOf t]) (redo cfg ap m).2 hm1live hch'
      hm1h hm1idx
    have hstepeq : redoAll cfg ap (t :: rest).length m
        = ((redoAll cfg ap rest.length (redo cfg ap m).2).1,
           (redo cfg ap m).2.state
             :: (redoAll cfg ap rest.length (redo cfg ap m).2).2) := by
      simp only [List.length_cons, redoAll, hcr, if_true]
    rw [hstepeq]
    refine ⟨?_, ?_, ?_, ?_⟩
    · rw [hmain.1, hm1state]
      rfl
    · rw [hmain.2.1, hm1h, hh]
      simp
    · rw [hmain.2.2.1, hm1h, hh]
      simp
    · rw [hmain.2.2.2, hm1state]
      rfl

/-- `runMutations_shape` from a freshly constructed machine. -/
theorem runMutations_fresh (cfg : Config σ) (ap : σ → P → σ) (s₀ : σ)
    (steps : List (MStep σ P))
    (hch : Chain ap cfg.validateState s₀ steps)
    (hne : ∀ t ∈ steps, t.patches ≠ [])
    (hlen : steps.length ≤ cfg.maxHistorySize) :
    (runMutations cfg (mkMachine s₀) steps).state = lastState s₀ steps
    ∧ (runMutations cfg (mkMachine s₀) steps).history = steps.map snapOf
    ∧ (runMutations cfg (mkMachine s₀) steps).historyIndex
        = (steps.length : Int) - 1
    ∧ (runMutations cfg (mkMachine s₀) steps).isDestroyed = false := by
  have h := runMutations_shape cfg ap steps (mkMachine s₀) rfl hch hne
    (by norm_num [mkMachine]) (by simpa [mkMachine] using hlen)
  refine ⟨h.1, ?_, ?_, h.2.2.2⟩
  · rw [h.2.1]
    simp [mkMachine]
  · rw [h.2.2.1]
    norm_num [mkMachine]

/-- C1 (amended: the sequence must fit inside the journal capacity,
`steps.length ≤ maxHistorySize`; beyond that, eviction makes full rollback
impossible — see the counterexample).  For any realizable sequence of
successful `mutate` calls from a fresh machine: undo repeated until
`canUndo()` is false reproduces the initial state exactly, and redo repeated
afterward reproduces, in order, the state held immediately before each
corresponding undo (the redo-state list is the reverse of the pre-undo-state
list), finishing back at the fully mutated state. -/
theorem round_trip_within_capacity (cfg : Config σ) (ap : σ → P → σ)
    (s₀ : σ) (steps : List (MStep σ P))
    (hv0 : cfg.validateState s₀ = true)
    (hch : Chain ap cfg.validateState s₀ steps)
    (hne : ∀ t ∈ steps, t.patches ≠ [])
    (hlen : steps.length ≤ cfg.maxHistorySize) :
    canUndo (undoAll cfg ap steps.length
        (runMutations cfg (mkMachine s₀) steps)).1 = false
    ∧ (undoAll cfg ap steps.length
        (runMutations cfg (mkMachine s₀) steps)).1.state = s₀
    ∧ (redoAll cfg ap steps.length
        (undoAll cfg ap steps.length
          (runMutations cfg (mkMachine s₀) steps)).1).2
      = (undoAll cfg ap steps.length
          (runMutations cfg (mkMachine s₀) steps)).2.reverse
    ∧ (redoAll cfg ap steps.length
        (undoAll cfg ap steps.length
          (runMutations cfg (mkMachine s₀) steps)).1).1.state
      = (runMutations cfg (mkMachine s₀) steps).state := by
  have hF := runMutations_fresh cfg ap s₀ steps hch hne hlen
  have hU := undoAll_reaches_anchor cfg ap steps []
    s₀ (runMutations cfg (mkMachine s₀) steps) hF.2.2.2 hv0 hch
    (by rw [List.append_nil]; exact hF.2.1) hF.2.2.1 hF.1
  have hR := redoAll_replays cfg ap steps []
    (undoAll cfg ap steps.length (runMutations cfg (mkMachine s₀) steps)).1
    hU.2.2.2.1
    (by rw [hU.1]; exact hch)
    (by rw [List.nil_append, hU.2.2.1]; exact hF.2.1)
    (by rw [hU.2.1]; simp)
  refine ⟨hU.2.2.2.2.1, hU.1, ?_, ?_⟩
  · rw [hR.2.2.2, hU.2.2.2.2.2, List.reverse_reverse]
  · rw [hR.1, hU.1, hF.1]

/-- The spec's example scenario as realized steps: set 5 then set 9. -/
def steps2 : List (MStep Int IPatch) :=
  [⟨5, [IPatch.set 5], [IPatch.set 0]⟩, ⟨9, [IPatch.set 9], [IPatch.set 5]⟩]

/-- Witness for `round_trip_within_capacity` on the spec's example scenario
(cap 50, two mutations). -/
theorem round_trip_within_capacity_witness :
    canUndo (undoAll icfg iApply steps2.length
        (runMutations icfg (mkMachine 0) steps2)).1 = false
    ∧ (undoAll icfg iApply steps2.length
        (runMutations icfg (mkMachine 0) steps2)).1.state = 0
    ∧ (redoAll icfg iApply steps2.length
        (undoAll icfg iApply steps2.length
          (runMutations icfg (mkMachine 0) steps2)).1).2
      = (undoAll icfg iApply steps2.length
          (runMutations icfg (mkMachine 0) steps2)).2.reverse
    ∧ (redoAll icfg iApply steps2.length
        (undoAll icfg iApply steps2.length
          (runMutations icfg (mkMachine 0) steps2)).1).1.state
      = (runMutations icfg (mkMachine 0) steps2).state :=
  round_trip_within_capacity icfg iApply 0 steps2 rfl
    ⟨rfl, rfl, rfl, rfl, rfl, rfl, trivial⟩ (by decide) (by decide)

/-- Counterexample to C1 as stated: with `maxHistorySize = 1`, two successful
mutations (0 → 5 → 9) evict the first snapshot; undoing until `canUndo()` is
false then stops at state 5, not at the initial state 0. -/
theorem round_trip_fails_beyond_capacity :
    (mkMachine 0 : Machine Int IPatch).state = 0
    ∧ canUndo (undoAll icfg1 iApply 2
        (runMutations icfg1 (mkMachine 0) steps2)).1 = false
    ∧ (undoAll icfg1 iApply 2
        (runMutations icfg1 (mkMachine 0) steps2)).1.state = 5 := by
  refine ⟨rfl, by decide, by decide⟩

/-
Batch patch concatenation (C7).
-/

/-- What `batch`'s reduce computes on realized steps: the threaded end state,
the forward patches pushed in application order, and the inverse patches
unshifted (whole-list-prepended) in reverse application order. -/
theorem batchFold_spec :
    ∀ (steps : List (MStep σ P)) (s : σ) (fps ips : List P),
      batchFold (steps.map stepRecipe) s fps ips
        = .ok (lastState s steps,
               fps ++ (steps.map (fun t => t.patches)).flatten,
               (steps.map (fun t => t.inversePatches)).reverse.flatten
                 ++ ips) := by
  intro steps
  induction steps with
  | nil =>
    intro s fps ips
    simp [batchFold, lastState]
  | cons t rest ih =>
    intro s fps ips
    have h1 : batchFold (List.map stepRecipe (t :: rest)) s fps ips
        = batchFold (List.map stepRecipe rest) t.next (fps ++ t.patches)
            (t.inversePatches ++ ips) := rfl
    rw [h1, ih]
    simp [lastState, List.flatten_append, List.append_assoc]

/-- Replaying the reverse-order concatenation of the inverse patch lists from
the end state of a codec-coherent run restores the anchor state. -/
theorem chain_inverse_flatten (ap : σ → P → σ) (v : σ → Bool) :
    ∀ (steps : List (MStep σ P)) (s : σ), Chain ap v s steps →
      applyPatches ap (lastState s steps)
        ((steps.map (fun t => t.inversePatches)).reverse.flatten) = s := by
  intro steps
  induction steps with
  | nil => intro s _; rfl
  | cons t rest ih =>
    intro s hch
    obtain ⟨hv, hf, hi, hc⟩ := hch
    show applyPatches ap (lastState t.next rest) _ = s
    rw [List.map_cons, List.reverse_cons, List.flatten_append,
      applyPatches_append, ih t.next hc]
    simpa using hi

/-- JavaScript indexing at `length − 1` is `getLast?`. -/
theorem getAtInt_last (l : List (Snapshot P)) (hne : l ≠ []) :
    getAtInt l ((l.length : Int) - 1) = l.getLast? := by
  have h1 : 0 < l.length := List.length_pos.mpr hne
  unfold getAtInt
  rw [if_neg (by omega), List.getLast?_eq_getElem?]
  have h2 : ((l.length : Int) - 1).toNat = l.length - 1 := by omega
  rw [h2]
  simp [List.get?_eq_getElem?]

/-- C7: in a successful `batch`, the written snapshot's forward patches are
the per-recipe forward lists concatenated in application order and its inverse
patches are the per-recipe inverse lists concatenated in reverse application
order; applying that combined inverse list to the post-batch state reproduces
the pre-batch state, and a single `undo` does exactly that. -/
theorem batch_patch_concatenation (cfg : Config σ) (ap : σ → P → σ)
    (m : Machine σ P) (steps : List (MStep σ P)) (d : Option String)
    (hlive : m.isDestroyed = false) (hmax : 1 ≤ cfg.maxHistorySize)
    (hidx : -1 ≤ m.historyIndex)
    (hlen : m.historyIndex < (m.history.length : Int))
    (hch : Chain ap (fun _ => true) m.state steps)
    (hp : (steps.map (fun t => t.patches)).flatten ≠ [])
    (hvfin : cfg.validateState (lastState m.state steps) = true)
    (hv0 : cfg.validateState m.state = true) :
    (batch cfg m (steps.map stepRecipe) d).1 = .ok ()
    ∧ (batch cfg m (steps.map stepRecipe) d).2.history.getLast?
        = some ⟨(steps.map (fun t => t.patches)).flatten,
                (steps.map (fun t => t.inversePatches)).reverse.flatten,
                snapDescription (some (batchDesc d))⟩
    ∧ applyPatches ap (batch cfg m (steps.map stepRecipe) d).2.state
        ((steps.map (fun t => t.inversePatches)).reverse.flatten) = m.state
    ∧ (undo cfg ap (batch cfg m (steps.map stepRecipe) d).2).1 = .ok true
    ∧ (undo cfg ap (batch cfg m (steps.map stepRecipe) d).2).2.state
        = m.state := by
  have hsne : steps ≠ [] := by
    rintro rfl
    simp at hp
  have hne : steps.map stepRecipe ≠ [] := by simpa using hsne
  have hfold := batchFold_spec steps m.state [] []
  rw [List.nil_append, List.append_nil] at hfold
  have hB := batch_success cfg m (steps.map stepRecipe) d
    (lastState m.state steps)
    ((steps.map (fun t => t.patches)).flatten)
    ((steps.map (fun t => t.inversePatches)).reverse.flatten)
    hlive hfold hne hp hvfin
  have hsv := saveToHistory_cursor_at_end cfg m
    ((steps.map (fun t => t.patches)).flatten)
    ((steps.map (fun t => t.inversePatches)).reverse.flatten)
    (some (batchDesc d)) hmax hidx hlen
  have hstate : (batch cfg m (steps.map stepRecipe) d).2.state
      = lastState m.state steps := by
    rw [hB]
    simp [emit, setState]
  have hhist : (batch cfg m (steps.map stepRecipe) d).2.history
      = (saveToHistory cfg m
          ((steps.map (fun t => t.patches)).flatten)
          ((steps.map (fun t => t.inversePatches)).reverse.flatten)
          (some (batchDesc d))).history := by
    rw [hB]
    simp [emit, setState]
  have hbidx : (batch cfg m (steps.map stepRecipe) d).2.historyIndex
      = (saveToHistory cfg m
          ((steps.map (fun t => t.patches)).flatten)
          ((steps.map (fun t => t.inversePatches)).reverse.flatten)
          (some (batchDesc d))).historyIndex := by
    rw [hB]
    simp [emit, setState]
  have hblive : (batch cfg m (steps.map stepRecipe) d).2.isDestroyed
      = false := by
    rw [hB]
    simp only [emit, setState]
    rw [(saveToHistory_proj cfg m _ _ _).2.1]
    exact hlive
  have hglast : (batch cfg m (steps.map stepRecipe) d).2.history.getLast?
      = some ⟨(steps.map (fun t => t.patches)).flatten,
              (steps.map (fun t => t.inversePatches)).reverse.flatten,
              snapDescription (some (batchDesc d))⟩ := by
    rw [hhist]
    exact hsv.2
  have hinvapply : applyPatches ap
      (batch cfg m (steps.map stepRecipe) d).2.state
      ((steps.map (fun t => t.inversePatches)).reverse.flatten) = m.state := by
    rw [hstate]
    exact chain_inverse_flatten ap (fun _ => true) steps m.state hch
  have hhne : (batch cfg m (steps.map stepRecipe) d).2.history ≠ [] := by
    intro h0
    rw [h0] at hglast
    simp at hglast
  have hcu : 0 ≤ (batch cfg m (steps.map stepRecipe) d).2.historyIndex := by
    rw [hbidx, hsv.1, ← hhist]
    have := List.length_pos.mpr hhne
    omega
  have hbidx' : (batch cfg m (steps.map stepRecipe) d).2.historyIndex
      = (((batch cfg m (steps.map stepRecipe) d).2.history.length : Int))
        - 1 := by
    rw [hbidx, hsv.1, hhist]
  have hsnap : getAtInt (batch cfg m (steps.map stepRecipe) d).2.history
      (batch cfg m (steps.map stepRecipe) d).2.historyIndex
      = some ⟨(steps.map (fun t => t.patches)).flatten,
              (steps.map (fun t => t.inversePatches)).reverse.flatten,
              snapDescription (some (batchDesc d))⟩ := by
    rw [hbidx', getAtInt_last _ hhne]
    exact hglast
  have hval : cfg.validateState
      (applyPatches ap (batch cfg m (steps.map stepRecipe) d).2.state
        ((steps.map (fun t => t.inversePatches)).reverse.flatten)) = true := by
    rw [hinvapply]
    exact hv0
  have hu := undo_success_eval cfg ap (batch cfg m (steps.map stepRecipe) d).2
    ⟨(steps.map (fun t => t.patches)).flatten,
     (steps.map (fun t => t.inversePatches)).reverse.flatten,
     snapDescription (some (batchDesc d))⟩
    hblive hcu hsnap hval
  refine ⟨by rw [hB], hglast, hinvapply, by rw [hu], ?_⟩
  rw [hu]
  simp only [emit, setState]
  exact hinvapply

/-- Witness for `batch_patch_concatenation`: batching the example scenario's
two recipes writes one snapshot with forward patches `[set 5, set 9]` and
inverse patches `[set 5, set 0]`, and one `undo` restores state 0. -/
theorem batch_patch_concatenation_witness :
    (batch icfg im0 (steps2.map stepRecipe) none).1 = .ok ()
    ∧ (batch icfg im0 (steps2.map stepRecipe) none).2.history.getLast?
        = some ⟨[IPatch.set 5, IPatch.set 9], [IPatch.set 5, IPatch.set 0],
                some "Batch operation"⟩
    ∧ (undo icfg iApply
        (batch icfg im0 (steps2.map stepRecipe) none).2).1 = .ok true
    ∧ (undo icfg iApply
        (batch icfg im0 (steps2.map stepRecipe) none).2).2.state
      = im0.state := by
  have h := batch_patch_concatenation icfg iApply im0 steps2 none rfl
    (by decide) (by decide) (by decide)
    ⟨rfl, rfl, rfl, rfl, rfl, rfl, trivial⟩ (by decide) rfl rfl
  exact ⟨h.1, h.2.1, h.2.2.2.1, h.2.2.2.2⟩

end Clutch
